import Mathlib

/-!
Verification of the getopt command-line parser (src/getopt.js).

The embedding models the normalized form of the parser's data:
strings are `List Char` (JS strings indexed by code unit), an option
specification is the result of `_normalize` (name/short/long coerced to
lists, `optional` defaulted to `false`, `argument` kept by truthiness),
and the scanner `_parse1` is an explicit state-passing function.
Callbacks are side effects that do not alter the yielded results and are
omitted.  Errors thrown by the source are modelled by `Except` with an
inductive carrying the option form, one constructor per distinct message
of the source.
-/

namespace Getopt

/-- JS string, indexed by code unit. -/
def s2c (s : String) : List Char := s.data

/-- `arg.substring(i, j)` of the source: characters in `[i, j)`. -/
def subl (l : List Char) (i j : Nat) : List Char := (l.take j).drop i

/-- `arg.indexOf(c, start)` of the source, with the source's fall-back
`if (i < 0) i = arg.length` already applied. -/
def idxOfFrom (c : Char) (l : List Char) (start : Nat) : Nat :=
  if start ≤ l.length then start + (l.drop start).findIdx (· == c) else l.length

/-- JS truthiness of a `string | undefined` value: `undefined` and the
empty string are falsy. -/
def truthy : Option (List Char) → Bool
  | none => false
  | some s => !s.isEmpty

/-- An option specification after `_normalize`: `name`, `short` and
`long` are lists, `argument` is kept by its truthiness, `optional`
defaults to `false`. -/
structure OptionSpec where
  name : List (List Char)
  short : List (List Char)
  long : List (List Char)
  argument : Bool
  optional : Bool
deriving DecidableEq, Repr

/-- A `Map` built from a list of entries, as in
`new Map(options.flatMap(...))`: for duplicate keys the later entry
wins, so lookup returns the last matching entry. -/
def mapGet (tbl : List (List Char × OptionSpec)) (k : List Char) : Option OptionSpec :=
  (tbl.reverse.find? (fun e => e.1 == k)).map (·.2)

/-- The short-form index of the registry:
`options.flatMap(o => o.short.map(x => [x, o]))`. -/
def shortTable (opts : List OptionSpec) : List (List Char × OptionSpec) :=
  opts.flatMap (fun o => o.short.map (fun x => (x, o)))

/-- The long-form index of the registry:
`options.flatMap(o => o.long.map(x => [x, o]))`. -/
def longTable (opts : List OptionSpec) : List (List Char × OptionSpec) :=
  opts.flatMap (fun o => o.long.map (fun x => (x, o)))

/-- The `parameter` field of a yielded result: either a parsed option
`{option, value}` or a positional parameter `{position, value}`. -/
inductive Param where
  | opt (spec : OptionSpec) (value : Option (List Char))
  | pos (position : Nat) (value : List Char)
deriving DecidableEq, Repr

/-- A result yielded by `_parse1`: `{parameter, index, subIndex?, subLength?}`. -/
structure Result where
  parameter : Param
  index : Nat
  subIndex : Option Nat
  subLength : Option Nat
deriving DecidableEq, Repr

/-- The components of `resultAwaitingArgument`, whose `parameter.value`
is still `undefined` while it waits for the next token. -/
structure Await where
  spec : OptionSpec
  index : Nat
  subIndex : Option Nat
  subLength : Option Nat
deriving DecidableEq, Repr

/-- The loop state of `_parse1` that is carried across tokens. -/
structure ScState where
  argIndex : Nat
  endOptions : Bool
  position : Nat
  awaiting : Option Await
deriving DecidableEq, Repr

/-- The errors thrown by `_parse1`, one constructor per distinct message:
`unrecognizedShort f` for `Unrecognized option '-f'.`,
`unrecognizedLong f` for `Unrecognized option '--f'.`,
`argumentNotAllowed f` for `Option '--f' does not take an argument.`,
`missingArgument f` for `Option '--f' requires an argument.`. -/
inductive ParseErr where
  | unrecognizedShort (form : List Char)
  | unrecognizedLong (form : List Char)
  | argumentNotAllowed (form : List Char)
  | missingArgument (form : List Char)
deriving DecidableEq, Repr

/-- The greedy search of the inner loop
`for (let j = arg.length; j > i; --j)`: the fuel `k` stands for
`j - i`, so the call with `k = arg.length - i` tests the substrings
`[i, j)` for `j` from `arg.length` down to `i + 1` and returns the first
(longest) match together with its end offset `j`. -/
def findShort (tbl : List (List Char × OptionSpec)) (arg : List Char) (i : Nat) :
    Nat → Option (Nat × OptionSpec)
  | 0 => none
  | k + 1 =>
    match mapGet tbl (subl arg i (i + k + 1)) with
    | some o => some (i + k + 1, o)
    | none => findShort tbl arg i k

/-- The outer loop `for (let i = 1; i < arg.length;)` of the
short-option bundle handler.  Returns the yielded results together with
the value of `resultAwaitingArgument` left by the bundle.  The `fuel`
argument only bounds the number of loop iterations so that the
recursion is structural: every match ends at some `j > i`, so each
iteration strictly increases `i` and a fuel of `arg.length` (the value
passed by `processToken`, with `i` starting at 1) can never run out
before the loop condition `i < arg.length` fails. -/
def scanBundle (tbl : List (List Char × OptionSpec)) (arg : List Char) (argIndex : Nat) :
    Nat → Nat → Except ParseErr (List Result × Option Await)
  | _, 0 => .ok ([], none)
  | i, fuel + 1 =>
    if i < arg.length then
      match findShort tbl arg i (arg.length - i) with
      | none => .error (.unrecognizedShort (subl arg i (i + 1)))
      | some (j, o) =>
        if !o.argument then
          match scanBundle tbl arg argIndex j fuel with
          | .error e => .error e
          | .ok (rs, aw) =>
            .ok (⟨.opt o none, argIndex, some (i - 1), some (j - i)⟩ :: rs, aw)
        else if j < arg.length then
          .ok ([⟨.opt o (some (arg.drop j)), argIndex, some (i - 1), some (j - i)⟩], none)
        else
          .ok ([], some ⟨o, argIndex, some (i - 1), some (j - i)⟩)
    else
      .ok ([], none)

/-- `yield` of the positional branch at the bottom of the loop body,
together with `position++` and `++argIndex`. -/
def emitPositional (st : ScState) (arg : List Char) : List Result × ScState :=
  ([⟨.pos st.position arg, st.argIndex, none, none⟩],
    { st with position := st.position + 1, argIndex := st.argIndex + 1 })

/-- One iteration of the `for (let arg of args)` loop of `_parse1`:
processes a single token, returning the yielded results and the updated
loop state. -/
def processToken (sT lT : List (List Char × OptionSpec)) (st : ScState) (arg : List Char) :
    Except ParseErr (List Result × ScState) :=
  if st.endOptions then
    .ok (emitPositional st arg)
  else
    match st.awaiting with
    | some a =>
      let v : Option (List Char) :=
        if !a.spec.optional || arg.head? ≠ some '-' then some arg else none
      .ok ([⟨.opt a.spec v, a.index, a.subIndex, a.subLength⟩], { st with awaiting := none })
    | none =>
      if arg.head? = some '-' ∧ 1 < arg.length then
        if arg[1]? = some '-' then
          if arg.length = 2 then
            .ok ([], { st with endOptions := true })
          else
            let i := idxOfFrom '=' arg 2
            let longOption := subl arg 2 i
            let value : Option (List Char) :=
              if i < arg.length then some (arg.drop (i + 1)) else none
            match mapGet lT longOption with
            | none => .error (.unrecognizedLong longOption)
            | some o =>
              if truthy value then
                if !o.argument then .error (.argumentNotAllowed longOption)
                else .ok ([⟨.opt o value, st.argIndex, none, none⟩], st)
              else if o.argument && !o.optional then
                .error (.missingArgument longOption)
              else
                .ok ([⟨.opt o value, st.argIndex, none, none⟩], st)
        else
          match scanBundle sT arg st.argIndex 1 arg.length with
          | .error e => .error e
          | .ok (rs, aw) => .ok (rs, { st with awaiting := aw })
      else
        .ok (emitPositional st arg)

/-- The `for (let arg of args)` loop of `_parse1`.  When the loop ends
with `resultAwaitingArgument` still set, the generator simply returns:
the pending result is neither yielded nor reported. -/
def scanTokens (sT lT : List (List Char × OptionSpec)) :
    ScState → List (List Char) → Except ParseErr (List Result)
  | _, [] => .ok []
  | st, arg :: rest =>
    match processToken sT lT st arg with
    | .error e => .error e
    | .ok (rs, st') =>
      match scanTokens sT lT st' rest with
      | .error e => .error e
      | .ok rest' => .ok (rs ++ rest')

/-- `_parse1(args, settings)` for normalized settings: builds the
short/long registries and runs the scanner from the initial state. -/
def parse1 (opts : List OptionSpec) (args : List (List Char)) :
    Except ParseErr (List Result) :=
  scanTokens (shortTable opts) (longTable opts) ⟨0, false, 0, none⟩ args

/-- A JS value stored in `parameter.value` after aggregation:
`undefined`, a string, or an array built by the merge step. -/
inductive Value where
  | undef
  | str (s : List Char)
  | arr (vs : List Value)

/-- The `Value` of a scanner-produced `string | undefined` option
value. -/
def scalarVal : Option (List Char) → Value
  | none => .undef
  | some s => .str s

/-- `Array.isArray` on a stored value. -/
def isArr : Value → Bool
  | .arr _ => true
  | _ => false

/-- The initial `parameter.value` of an entry of the parsed sequence.
For a positional entry the stored slot is never consulted. -/
def initVal : Param → Value
  | .opt _ v => scalarVal v
  | .pos _ v => .str v

/-- The aggregation state of the indexing loop of `getopt`.  The
mutation of shared parameter objects is modelled by a `store` indexed by
the position of each parameter in the parsed sequence, with
`results.options` mapping each key to the index of the parameter object
it holds. -/
structure AggSt where
  store : List Value
  omap : List (List Char × Nat)
  parameters : List (Nat × List Char)

/-- `results.options[key]` lookup: keys of the object are unique, first
binding wins. -/
def omapGet (m : List (List Char × Nat)) (k : List Char) : Option Nat :=
  (m.find? (fun e => e.1 == k)).map (·.2)

/-- `option.value.push(x)` on an array value. -/
def pushVal : Value → Value → Value
  | .arr vs, x => .arr (vs ++ [x])
  | v, _ => v

/-- The body of `for (let key of keys)` in `getopt`: insert the current
parameter (object `idx`) under `key`, or merge into the parameter
already stored there — `if (!Array.isArray(option.value)) option.value =
[option.value]; option.value.push(parameter.value)`. -/
def mergeKey (idx : Nat) (st : AggSt) (key : List Char) : AggSt :=
  match omapGet st.omap key with
  | none => { st with omap := st.omap ++ [(key, idx)] }
  | some j =>
    let store1 :=
      match st.store.getD j .undef with
      | .arr _ => st.store
      | v => st.store.set j (.arr [v])
    let store2 := store1.set j (pushVal (store1.getD j .undef) (store1.getD idx .undef))
    { st with store := store2 }

/-- One iteration of the indexing loop of `getopt`: an optional
parameter is indexed under every key in
`option.name.concat(option.short, option.long)`; a positional parameter
is appended to `results.parameters`. -/
def aggStep (idx : Nat) (p : Param) (st : AggSt) : AggSt :=
  match p with
  | .opt spec _ => (spec.name ++ spec.short ++ spec.long).foldl (mergeKey idx) st
  | .pos position value => { st with parameters := st.parameters ++ [(position, value)] }

/-- The indexing loop of `getopt` over the parsed sequence. -/
def aggLoop (sT : AggSt) : Nat → List Param → AggSt
  | _, [] => sT
  | idx, p :: rest => aggLoop (aggStep idx p sT) (idx + 1) rest

/-- An entry of `results.sequence` as seen after aggregation: the parsed
parameter object with its (possibly merged) value. -/
inductive Entry where
  | opt (spec : OptionSpec) (value : Value)
  | pos (position : Nat) (value : List Char)

/-- The view of a parameter object through the final store. -/
def entryOf (p : Param) (v : Value) : Entry :=
  match p with
  | .opt spec _ => .opt spec v
  | .pos position value => .pos position value

/-- `results.sequence` read back through the final store. -/
def seqOut (store : List Value) : Nat → List Param → List Entry
  | _, [] => []
  | idx, p :: rest => entryOf p (store.getD idx .undef) :: seqOut store (idx + 1) rest

/-- The sanitized results of `getopt`: `sequence`, `options` (each alias
key with the final value of the parameter object it holds) and
`parameters`. -/
structure Results where
  sequence : List Entry
  options : List (List Char × Value)
  parameters : List (Nat × List Char)

/-- The aggregation phase of `getopt` over the parsed sequence. -/
def aggregate (params : List Param) : Results :=
  let st := aggLoop ⟨params.map initVal, [], []⟩ 0 params
  { sequence := seqOut st.store 0 params,
    options := st.omap.map (fun kj => (kj.1, st.store.getD kj.2 .undef)),
    parameters := st.parameters }

/-- `getopt(args, settings)` for normalized settings with no callbacks:
parse the arguments and build the sanitized results. -/
def getopt (opts : List OptionSpec) (args : List (List Char)) :
    Except ParseErr Results :=
  match parse1 opts args with
  | .error e => .error e
  | .ok results => .ok (aggregate (results.map (·.parameter)))

/-! Concrete option specifications used by the claims, written in their
normalized form. -/

/-- `{short: 'v'}`: a no-argument short option. -/
def vSpec : OptionSpec := ⟨[], [s2c "v"], [], false, false⟩

/-- `{short: 'o', argument: true}`: a required-argument short option. -/
def oReq : OptionSpec := ⟨[], [s2c "o"], [], true, false⟩

/-- `{short: 'a', argument: true, optional: true}`: an
optional-argument short option. -/
def aOpt : OptionSpec := ⟨[], [s2c "a"], [], true, true⟩

/-- `{short: 'b'}`: a no-argument short option. -/
def bOpt : OptionSpec := ⟨[], [s2c "b"], [], false, false⟩

/-- `{short: 'v', long: 'verbose'}`: a no-argument option with two
alias keys. -/
def vvSpec : OptionSpec := ⟨[], [s2c "v"], [s2c "verbose"], false, false⟩

/-- `{short: 'M'}`. -/
def optM : OptionSpec := ⟨[], [s2c "M"], [], false, false⟩

/-- `{short: 'MF', argument: true}`. -/
def optMF : OptionSpec := ⟨[], [s2c "MF"], [], true, false⟩

/-- `{short: 'MG'}`. -/
def optMG : OptionSpec := ⟨[], [s2c "MG"], [], false, false⟩

/-- `{short: 'MP'}`. -/
def optMP : OptionSpec := ⟨[], [s2c "MP"], [], false, false⟩

/-- The option list of the multi-character short-option test. -/
def mSpecs : List OptionSpec := [optM, optMF, optMG, optMP]

/-- `{long: 'output', argument: true}`: a required-argument long
option. -/
def outputSpec : OptionSpec := ⟨[], [], [s2c "output"], true, false⟩

/-- `{long: 'quiet'}`: a no-argument long option. -/
def quietSpec : OptionSpec := ⟨[], [], [s2c "quiet"], false, false⟩

/-- `{long: 'foo'}`: a no-argument long option. -/
def fooSpec : OptionSpec := ⟨[], [], [s2c "foo"], false, false⟩

/-- The results of scanning a run of tokens in which every token is
emitted as a positional parameter, starting from token counter `ai` and
position counter `p`. -/
def posResults (ai p : Nat) : List (List Char) → List Result
  | [] => []
  | a :: rest => ⟨.pos p a, ai, none, none⟩ :: posResults (ai + 1) (p + 1) rest

/-- The positional parameter objects of such a run. -/
def posParams : Nat → List (List Char) → List Param
  | _, [] => []
  | p, a :: rest => .pos p a :: posParams (p + 1) rest

/-- Each token paired with its position counter, starting at `p`. -/
def idxPairs : Nat → List (List Char) → List (Nat × List Char)
  | _, [] => []
  | p, a :: rest => (p, a) :: idxPairs (p + 1) rest

/-! Helper lemmas. -/

theorem scanTokens_endOptions (sT lT : List (List Char × OptionSpec)) :
    ∀ (args : List (List Char)) (ai p : Nat) (aw : Option Await),
      scanTokens sT lT ⟨ai, true, p, aw⟩ args = .ok (posResults ai p args) := by
  intro args
  induction args with
  | nil => intro ai p aw; rfl
  | cons a rest ih =>
    intro ai p aw
    simp [scanTokens, processToken, emitPositional, posResults, ih]

theorem scanTokens_noDash (sT lT : List (List Char × OptionSpec)) :
    ∀ (args : List (List Char)) (ai p : Nat),
      (∀ a ∈ args, a.head? ≠ some '-') →
      scanTokens sT lT ⟨ai, false, p, none⟩ args = .ok (posResults ai p args) := by
  intro args
  induction args with
  | nil => intro ai p _; rfl
  | cons a rest ih =>
    intro ai p h
    have ha : ¬(a.head? = some '-') := h a (List.mem_cons_self a rest)
    have hrest : ∀ b ∈ rest, b.head? ≠ some '-' :=
      fun b hb => h b (List.mem_cons_of_mem a hb)
    simp [scanTokens, processToken, emitPositional, posResults, ih (ai + 1) (p + 1) hrest, ha]

theorem posResults_params :
    ∀ (args : List (List Char)) (ai p : Nat),
      (posResults ai p args).map (·.parameter) = posParams p args := by
  intro args
  induction args with
  | nil => intro ai p; rfl
  | cons a rest ih => intro ai p; simp [posResults, posParams, ih]

theorem aggLoop_pos :
    ∀ (args : List (List Char)) (p idx : Nat) (st : AggSt),
      aggLoop st idx (posParams p args) =
        ⟨st.store, st.omap, st.parameters ++ idxPairs p args⟩ := by
  intro args
  induction args with
  | nil => intro p idx st; simp [posParams, aggLoop, idxPairs]
  | cons a rest ih =>
    intro p idx st
    simp [posParams, aggLoop, aggStep, idxPairs, ih]

theorem findShort_longest {tbl : List (List Char × OptionSpec)} {arg : List Char} {i : Nat} :
    ∀ {k j : Nat} {o : OptionSpec}, findShort tbl arg i k = some (j, o) →
      mapGet tbl (subl arg i j) = some o ∧
        ∀ j', j < j' → j' ≤ i + k → mapGet tbl (subl arg i j') = none := by
  intro k
  induction k with
  | zero => intro j o h; simp [findShort] at h
  | succ k ih =>
    intro j o h
    rw [findShort] at h
    cases hm : mapGet tbl (subl arg i (i + k + 1)) with
    | some o' =>
      rw [hm] at h
      obtain ⟨h1, h2⟩ := Prod.mk.injEq _ _ _ _ ▸ Option.some.inj h
      subst h1; subst h2
      refine ⟨hm, fun j' hj1 hj2 => absurd hj2 (by omega)⟩
    | none =>
      rw [hm] at h
      obtain ⟨h1, h2⟩ := ih h
      refine ⟨h1, fun j' hj1 hj2 => ?_⟩
      rcases Nat.lt_or_ge j' (i + k + 1) with hlt | hge
      · exact h2 j' hj1 (by omega)
      · have hj : j' = i + k + 1 := by omega
        subst hj; exact hm

theorem findIdx_eq_append {name : List Char} (hq : '=' ∉ name) :
    (name ++ ['=']).findIdx (· == '=') = name.length := by
  induction name with
  | nil => simp [List.findIdx_cons]
  | cons c rest ih =>
    have hc : c ≠ '=' := fun h => hq (h ▸ List.mem_cons_self c rest)
    have hrest : '=' ∉ rest := fun h => hq (List.mem_cons_of_mem c h)
    have hb : (c == '=') = false := by simp [hc]
    simp [List.findIdx_cons, hb, ih hrest]

theorem take_two_plus {name tail : List Char} {n : Nat} :
    ('-' :: '-' :: (name ++ tail)).take (2 + n) = '-' :: '-' :: (name ++ tail).take n := by
  have : 2 + n = n + 2 := by omega
  rw [this]
  rfl

theorem subl_mid {name : List Char} (tail : List Char) :
    subl ('-' :: '-' :: (name ++ tail)) 2 (2 + name.length) = name := by
  simp [subl, take_two_plus, List.take_append_eq_append_take, List.take_length]

/-! Lemmas about the store and key map of the aggregation loop. -/

theorem getD_set_self {α : Type} (d : α) :
    ∀ (l : List α) (j : Nat) (v : α), j < l.length → (l.set j v).getD j d = v := by
  intro l
  induction l with
  | nil => intro j v h; simp at h
  | cons a t ih =>
    intro j v h
    cases j with
    | zero => rfl
    | succ j =>
      show (t.set j v).getD j d = v
      exact ih j v (Nat.lt_of_succ_lt_succ h)

theorem getD_set_ne {α : Type} (d : α) :
    ∀ (l : List α) (j i : Nat) (v : α), j ≠ i → (l.set j v).getD i d = l.getD i d := by
  intro l
  induction l with
  | nil => intro j i v _; rfl
  | cons a t ih =>
    intro j i v hne
    cases j with
    | zero =>
      cases i with
      | zero => exact absurd rfl hne
      | succ i => rfl
    | succ j =>
      cases i with
      | zero => rfl
      | succ i =>
        show (t.set j v).getD i d = t.getD i d
        exact ih j i v (fun h => hne (by rw [h]))

theorem set_getD_self {α : Type} (d : α) :
    ∀ (l : List α) (j : Nat), j < l.length → l.set j (l.getD j d) = l := by
  intro l
  induction l with
  | nil => intro j h; simp at h
  | cons a t ih =>
    intro j h
    cases j with
    | zero => rfl
    | succ j =>
      show a :: t.set j (t.getD j d) = a :: t
      rw [ih j (Nat.lt_of_succ_lt_succ h)]

theorem getD_append_cons {α : Type} (d : α) :
    ∀ (l1 : List α) (a : α) (l2 : List α), (l1 ++ a :: l2).getD l1.length d = a := by
  intro l1
  induction l1 with
  | nil => intro a l2; rfl
  | cons b t ih => intro a l2; exact ih a l2

theorem omapGet_cons_pos {m : List (List Char × Nat)} {key : List Char}
    {e : List Char × Nat} (h : (e.1 == key) = true) :
    omapGet (e :: m) key = some e.2 := by
  unfold omapGet
  rw [List.find?_cons_of_pos m (show ((fun x => x.1 == key) e) = true from h)]
  rfl

theorem omapGet_cons_neg {m : List (List Char × Nat)} {key : List Char}
    {e : List Char × Nat} (h : (e.1 == key) = false) :
    omapGet (e :: m) key = omapGet m key := by
  unfold omapGet
  rw [List.find?_cons_of_neg m (show ¬((fun x => x.1 == key) e = true) from by simp [h])]

theorem omapGet_map_const :
    ∀ (ks : List (List Char)) (key : List Char) (idx : Nat), key ∈ ks →
      omapGet (ks.map (fun k => (k, idx))) key = some idx := by
  intro ks
  induction ks with
  | nil => intro key idx h; simp at h
  | cons k rest ih =>
    intro key idx h
    cases hbk : (k == key) with
    | true => exact omapGet_cons_pos hbk
    | false =>
      rw [List.map_cons, omapGet_cons_neg hbk]
      rcases List.mem_cons.mp h with hk | hmem
      · exact absurd (by simp [hk]) (by simp [hbk] : ¬(k == key) = true)
      · exact ih key idx hmem

theorem omapGet_append_ne :
    ∀ (m : List (List Char × Nat)) (key' key : List Char) (idx : Nat),
      omapGet m key' = none → key ≠ key' →
      omapGet (m ++ [(key, idx)]) key' = none := by
  intro m
  induction m with
  | nil =>
    intro key' key idx _ h2
    rw [List.nil_append, omapGet_cons_neg (by simpa using h2)]
    rfl
  | cons e m' ih =>
    intro key' key idx h1 h2
    cases hbe : (e.1 == key') with
    | true => rw [omapGet_cons_pos hbe] at h1; exact absurd h1 (by simp)
    | false =>
      rw [omapGet_cons_neg hbe] at h1
      rw [List.cons_append, omapGet_cons_neg hbe]
      exact ih key' key idx h1 h2

/-- Registering a run of distinct fresh keys appends one binding per
key and leaves the store and parameters untouched. -/
theorem foldl_mergeKey_fresh :
    ∀ (ks : List (List Char)) (st : AggSt) (idx : Nat), ks.Nodup →
      (∀ key ∈ ks, omapGet st.omap key = none) →
      ks.foldl (mergeKey idx) st =
        ⟨st.store, st.omap ++ ks.map (fun key => (key, idx)), st.parameters⟩ := by
  intro ks
  induction ks with
  | nil => intro st idx _ _; simp
  | cons key rest ih =>
    intro st idx hnd h
    have h1 : omapGet st.omap key = none := h key (List.mem_cons_self key rest)
    have hstep : mergeKey idx st key = ⟨st.store, st.omap ++ [(key, idx)], st.parameters⟩ := by
      unfold mergeKey
      rw [h1]
    rw [List.foldl_cons, hstep]
    rw [ih _ idx (List.nodup_cons.mp hnd).2
      (fun key' hk' => omapGet_append_ne st.omap key' key idx
        (h key' (List.mem_cons_of_mem key hk'))
        (fun he => (List.nodup_cons.mp hnd).1 (he ▸ hk')))]
    simp

/-- Merging a later occurrence whose object already holds an array:
each alias key appends one copy of the occurrence's value. -/
theorem foldl_mergeKey_arr :
    ∀ (ks : List (List Char)) (st : AggSt) (idx : Nat) (ws : List Value) (w : Value),
      (∀ key ∈ ks, omapGet st.omap key = some 0) → idx ≠ 0 → 0 < st.store.length →
      st.store.getD 0 .undef = .arr ws → st.store.getD idx .undef = w →
      ks.foldl (mergeKey idx) st =
        ⟨st.store.set 0 (.arr (ws ++ List.replicate ks.length w)), st.omap, st.parameters⟩ := by
  intro ks
  induction ks with
  | nil =>
    intro st idx ws w _ _ hlen hg0 _
    rw [List.foldl_nil]
    have hrep : List.replicate ([] : List (List Char)).length w = [] := rfl
    rw [hrep, List.append_nil, ← hg0, set_getD_self _ _ _ hlen]
  | cons key rest ih =>
    intro st idx ws w h hidx hlen hg0 hgi
    have h0 : omapGet st.omap key = some 0 := h key (List.mem_cons_self key rest)
    have hstep : mergeKey idx st key =
        ⟨st.store.set 0 (.arr (ws ++ [w])), st.omap, st.parameters⟩ := by
      unfold mergeKey
      rw [h0]
      dsimp only
      rw [hg0]
      dsimp only
      rw [hg0, hgi]
      rfl
    rw [List.foldl_cons, hstep]
    rw [ih ⟨st.store.set 0 (.arr (ws ++ [w])), st.omap, st.parameters⟩ idx (ws ++ [w]) w
      (fun key' hk' => h key' (List.mem_cons_of_mem key hk')) hidx (by simpa using hlen)
      (getD_set_self _ _ _ _ hlen)
      (by rw [getD_set_ne _ _ _ _ _ (fun he => hidx he.symm)]; exact hgi)]
    rw [List.set_set]
    have hrw : (ws ++ [w]) ++ List.replicate rest.length w =
        ws ++ List.replicate (key :: rest).length w := by
      rw [List.append_assoc]
      rfl
    rw [hrw]

/-- Merging the second occurrence of a spec: the stored scalar is first
wrapped into a one-element array, then each alias key appends one copy
of the new value. -/
theorem foldl_mergeKey_first :
    ∀ (ks : List (List Char)) (st : AggSt) (idx : Nat) (u w : Value),
      ks ≠ [] → (∀ key ∈ ks, omapGet st.omap key = some 0) → idx ≠ 0 →
      0 < st.store.length → isArr u = false →
      st.store.getD 0 .undef = u → st.store.getD idx .undef = w →
      ks.foldl (mergeKey idx) st =
        ⟨st.store.set 0 (.arr (u :: List.replicate ks.length w)), st.omap, st.parameters⟩ := by
  intro ks st idx u w hne h hidx hlen hu hg0 hgi
  obtain ⟨key, rest, rfl⟩ := List.exists_cons_of_ne_nil hne
  have h0 : omapGet st.omap key = some 0 := h key (List.mem_cons_self key rest)
  have hstep : mergeKey idx st key =
      ⟨st.store.set 0 (.arr [u, w]), st.omap, st.parameters⟩ := by
    unfold mergeKey
    rw [h0]
    dsimp only
    rw [hg0]
    cases u with
    | undef =>
      dsimp only
      rw [getD_set_self _ _ _ _ hlen,
        getD_set_ne _ _ _ _ _ (fun he => hidx he.symm), hgi, List.set_set]
      rfl
    | str sVal =>
      dsimp only
      rw [getD_set_self _ _ _ _ hlen,
        getD_set_ne _ _ _ _ _ (fun he => hidx he.symm), hgi, List.set_set]
      rfl
    | arr vs => exact absurd hu (by simp [isArr])
  rw [List.foldl_cons, hstep]
  rw [foldl_mergeKey_arr rest ⟨st.store.set 0 (.arr [u, w]), st.omap, st.parameters⟩ idx [u, w] w
    (fun key' hk' => h key' (List.mem_cons_of_mem key hk')) hidx (by simpa using hlen)
    (getD_set_self _ _ _ _ hlen)
    (by rw [getD_set_ne _ _ _ _ _ (fun he => hidx he.symm)]; exact hgi)]
  rw [List.set_set]
  have hrw : ([u, w] : List Value) ++ List.replicate rest.length w =
      u :: List.replicate (key :: rest).length w := rfl
  rw [hrw]

/-- Once the shared object holds an array, a run of further occurrences
of the same spec appends `ks.length` copies of each occurrence's
value.  The store is presented as `pre ++ vals.map scalarVal ++ rest`
so that the occurrence at loop index `pre.length + t` reads its own
scalar slot. -/
theorem aggLoop_merge_run (s : OptionSpec) (ks : List (List Char))
    (hks : s.name ++ s.short ++ s.long = ks) :
    ∀ (vals : List (Option (List Char))) (pre rest : List Value)
      (omap : List (List Char × Nat)) (ps : List (Nat × List Char)) (ws : List Value),
      pre ≠ [] → (∀ key ∈ ks, omapGet omap key = some 0) →
      aggLoop ⟨(pre ++ vals.map scalarVal ++ rest).set 0 (.arr ws), omap, ps⟩
          pre.length (vals.map (Param.opt s)) =
        ⟨(pre ++ vals.map scalarVal ++ rest).set 0
            (.arr (ws ++ vals.flatMap (fun w => List.replicate ks.length (scalarVal w)))),
          omap, ps⟩ := by
  intro vals
  induction vals with
  | nil => intro pre rest omap ps ws _ _; simp [aggLoop]
  | cons w vals' ih =>
    intro pre rest omap ps ws hpre h
    have hplen : 0 < pre.length := List.length_pos.mpr hpre
    have hbase : pre ++ (w :: vals').map scalarVal ++ rest =
        pre ++ scalarVal w :: (vals'.map scalarVal ++ rest) := by
      simp
    have hblen : 0 < (pre ++ (w :: vals').map scalarVal ++ rest).length := by
      simp only [List.length_append, List.map_cons, List.length_cons, List.length_map]
      omega
    have hstep : aggStep pre.length (Param.opt s w)
        ⟨(pre ++ (w :: vals').map scalarVal ++ rest).set 0 (.arr ws), omap, ps⟩ =
        ⟨(pre ++ (w :: vals').map scalarVal ++ rest).set 0
            (.arr (ws ++ List.replicate ks.length (scalarVal w))), omap, ps⟩ := by
      show (s.name ++ s.short ++ s.long).foldl (mergeKey pre.length)
          ⟨(pre ++ (w :: vals').map scalarVal ++ rest).set 0 (.arr ws), omap, ps⟩ = _
      rw [hks]
      rw [foldl_mergeKey_arr ks
        ⟨(pre ++ (w :: vals').map scalarVal ++ rest).set 0 (.arr ws), omap, ps⟩
        pre.length ws (scalarVal w) h (by omega)
        (by simpa using hblen)
        (getD_set_self _ _ _ _ hblen)
        (by
          rw [getD_set_ne _ _ _ _ _ (by omega)]
          rw [hbase]
          exact getD_append_cons _ pre (scalarVal w) (vals'.map scalarVal ++ rest))]
      rw [List.set_set]
    show aggLoop
        (aggStep pre.length (Param.opt s w)
          ⟨(pre ++ (w :: vals').map scalarVal ++ rest).set 0 (.arr ws), omap, ps⟩)
        (pre.length + 1) (vals'.map (Param.opt s)) = _
    rw [hstep]
    have hre : pre ++ (w :: vals').map scalarVal ++ rest =
        (pre ++ [scalarVal w]) ++ vals'.map scalarVal ++ rest := by
      simp
    have hlen1 : pre.length + 1 = (pre ++ [scalarVal w]).length := by
      simp
    rw [hre, hlen1]
    rw [ih (pre ++ [scalarVal w]) rest omap ps
      (ws ++ List.replicate ks.length (scalarVal w)) (by simp) h]
    have hval : (ws ++ List.replicate ks.length (scalarVal w)) ++
          vals'.flatMap (fun x => List.replicate ks.length (scalarVal x)) =
        ws ++ (w :: vals').flatMap (fun x => List.replicate ks.length (scalarVal x)) := by
      rw [List.flatMap_cons, List.append_assoc]
    rw [hval]

/-- The value stored under every alias key of a spec matched by the
occurrence values `v :: vs` (in emission order), where `m` is the
number of alias keys the spec owns: the single occurrence's scalar when
`vs = []`, otherwise the first value followed by `m` copies of each
later value. -/
def mergedVal (m : Nat) (v : Option (List Char)) (vs : List (Option (List Char))) : Value :=
  match vs with
  | [] => scalarVal v
  | _ => .arr (scalarVal v :: vs.flatMap (fun w => List.replicate m (scalarVal w)))

/-- The aggregation of a parse whose occurrences are the matches
`v :: vs` of the single spec `s`: every alias key of `s` is bound to
the same merged value `mergedVal ks.length v vs`, and there are no
positional parameters. -/
theorem aggregate_single_spec (s : OptionSpec) (ks : List (List Char))
    (v : Option (List Char)) (vs : List (Option (List Char)))
    (hks : s.name ++ s.short ++ s.long = ks) (hne : ks ≠ []) (hnd : ks.Nodup) :
    (aggregate ((v :: vs).map (Param.opt s))).options =
        ks.map (fun key => (key, mergedVal ks.length v vs))
      ∧ (aggregate ((v :: vs).map (Param.opt s))).parameters = [] := by
  have hstore0 : ((v :: vs).map (Param.opt s)).map initVal = (v :: vs).map scalarVal := by
    simp [initVal]
  have hstep0 : aggStep 0 (Param.opt s v) ⟨(v :: vs).map scalarVal, [], []⟩ =
      ⟨(v :: vs).map scalarVal, ks.map (fun key => (key, 0)), []⟩ := by
    show (s.name ++ s.short ++ s.long).foldl (mergeKey 0)
        ⟨(v :: vs).map scalarVal, [], []⟩ = _
    rw [hks]
    rw [foldl_mergeKey_fresh ks ⟨(v :: vs).map scalarVal, [], []⟩ 0 hnd (fun key _ => rfl)]
    rfl
  have homap : ∀ key ∈ ks, omapGet (ks.map (fun k => (k, 0))) key = some 0 :=
    fun key hk => omapGet_map_const ks key 0 hk
  obtain ⟨fs, hfinal, hfs0⟩ : ∃ fs,
      aggLoop ⟨(v :: vs).map scalarVal, [], []⟩ 0 ((v :: vs).map (Param.opt s)) =
          ⟨fs, ks.map (fun key => (key, 0)), []⟩
        ∧ fs.getD 0 .undef = mergedVal ks.length v vs := by
    cases vs with
    | nil =>
      refine ⟨[v].map scalarVal, ?_, rfl⟩
      show aggLoop (aggStep 0 (Param.opt s v) ⟨[v].map scalarVal, [], []⟩) 1 [] = _
      rw [hstep0]
      rfl
    | cons w vs' =>
      have hstep1 : aggStep 1 (Param.opt s w)
          ⟨(v :: w :: vs').map scalarVal, ks.map (fun key => (key, 0)), []⟩ =
          ⟨((v :: w :: vs').map scalarVal).set 0
              (.arr (scalarVal v :: List.replicate ks.length (scalarVal w))),
            ks.map (fun key => (key, 0)), []⟩ := by
        show (s.name ++ s.short ++ s.long).foldl (mergeKey 1)
            ⟨(v :: w :: vs').map scalarVal, ks.map (fun key => (key, 0)), []⟩ = _
        rw [hks]
        rw [foldl_mergeKey_first ks
          ⟨(v :: w :: vs').map scalarVal, ks.map (fun key => (key, 0)), []⟩
          1 (scalarVal v) (scalarVal w) hne homap
          (by omega) (by simp) (by cases v <;> rfl) rfl rfl]
      have hrun := aggLoop_merge_run s ks hks vs' [scalarVal v, scalarVal w] []
        (ks.map (fun k => (k, 0))) []
        (scalarVal v :: List.replicate ks.length (scalarVal w)) (by simp) homap
      rw [show ([scalarVal v, scalarVal w] : List Value).length = 2 from rfl] at hrun
      refine ⟨([scalarVal v, scalarVal w] ++ vs'.map scalarVal ++ []).set 0
        (.arr (scalarVal v ::
          (w :: vs').flatMap (fun x => List.replicate ks.length (scalarVal x)))), ?_, ?_⟩
      · show aggLoop (aggStep 1 (Param.opt s w)
            (aggStep 0 (Param.opt s v) ⟨(v :: w :: vs').map scalarVal, [], []⟩))
            2 (vs'.map (Param.opt s)) = _
        rw [hstep0, hstep1]
        have hb : ((v :: w :: vs').map scalarVal : List Value) =
            [scalarVal v, scalarVal w] ++ vs'.map scalarVal ++ [] := by
          simp
        rw [hb, hrun]
        have hval : (scalarVal v :: List.replicate ks.length (scalarVal w)) ++
              vs'.flatMap (fun x => List.replicate ks.length (scalarVal x)) =
            scalarVal v ::
              (w :: vs').flatMap (fun x => List.replicate ks.length (scalarVal x)) := by
          rw [List.flatMap_cons, List.cons_append]
        rw [hval]
      · rw [getD_set_self _ _ _ _ (by simp)]
        rfl
  have hopts : (aggregate ((v :: vs).map (Param.opt s))).options =
      ks.map (fun key => (key, mergedVal ks.length v vs)) := by
    show ((aggLoop ⟨((v :: vs).map (Param.opt s)).map initVal, [], []⟩ 0
        ((v :: vs).map (Param.opt s))).omap).map
          (fun kj => (kj.1, (aggLoop ⟨((v :: vs).map (Param.opt s)).map initVal, [], []⟩ 0
            ((v :: vs).map (Param.opt s))).store.getD kj.2 .undef)) = _
    rw [hstore0, hfinal]
    rw [List.map_map]
    apply List.map_congr_left
    intro key _
    show (key, fs.getD 0 .undef) = (key, mergedVal ks.length v vs)
    rw [hfs0]
  have hparams : (aggregate ((v :: vs).map (Param.opt s))).parameters = [] := by
    show (aggLoop ⟨((v :: vs).map (Param.opt s)).map initVal, [], []⟩ 0
        ((v :: vs).map (Param.opt s))).parameters = []
    rw [hstore0, hfinal]
  exact ⟨hopts, hparams⟩

theorem flatMap_replicate_one {α β : Type} (f : α → β) :
    ∀ l : List α, l.flatMap (fun x => List.replicate 1 (f x)) = l.map f := by
  intro l
  induction l with
  | nil => rfl
  | cons a t ih => simp only [List.flatMap_cons, ih, List.map_cons]; rfl

theorem length_flatMap_replicate {α β : Type} (m : Nat) (f : α → β) :
    ∀ l : List α, (l.flatMap (fun x => List.replicate m (f x))).length = m * l.length := by
  intro l
  induction l with
  | nil => simp
  | cons a t ih =>
    simp only [List.flatMap_cons, List.length_append, List.length_replicate, ih,
      List.length_cons, Nat.mul_succ]
    omega

/-! The claims. -/

/-- C1: the claim states that every yielded occurrence carries an
`index` equal to the 0-based position of the producing token in the
token array.  The code only increments `argIndex` when a positional
parameter is emitted, so with `['-v', 'x']` the positional `'x'` — the
token at index 1 — is yielded with `index = 0`. -/
theorem c1_index_of_second_token :
    parse1 [vSpec] [s2c "-v", s2c "x"] =
      .ok [⟨.opt vSpec none, 0, some 0, some 1⟩,
        ⟨.pos 0 (s2c "x"), 0, none, none⟩] := by
  rfl

/-- C2: the claim states that a required-argument option left awaiting
its argument at end of input raises a missing-argument error.  The
scanner's loop simply ends: with `['-o']` and a required-argument
option `o`, the parse succeeds with no yielded result at all — the
pending occurrence is silently dropped. -/
theorem c2_awaiting_dropped_at_end :
    parse1 [oReq] [s2c "-o"] = .ok [] := by
  rfl

/-- C3: the claim states that when an optional-argument option is
awaiting its argument and the next token looks like an option, that
token is re-processed as a new token.  The code yields the pending
option with no value but then `continue`s, so the token is consumed and
dropped: with `['-a', '-b']` (`a` optional-argument, `b` registered)
the parse yields only the occurrence of `a` and nothing for `-b`. -/
theorem c3_following_option_token_dropped :
    parse1 [aOpt, bOpt] [s2c "-a", s2c "-b"] =
      .ok [⟨.opt aOpt none, 0, some 0, some 1⟩] := by
  rfl

/-- C4 counterexample: for a spec with the two alias keys `v` and
`verbose` matched twice, the merge appends the second value once per
alias key, so both keys end with a three-element list — not the ordered
two-element list of matched values the claim requires. -/
theorem c4_counterexample :
    getopt [vvSpec] [s2c "-v", s2c "-v"] =
      .ok ⟨[.opt vvSpec (.arr [.undef, .undef, .undef]), .opt vvSpec .undef],
        [(s2c "v", .arr [.undef, .undef, .undef]),
          (s2c "verbose", .arr [.undef, .undef, .undef])],
        []⟩
    ∧ Value.arr [.undef, .undef, .undef] ≠ Value.arr [.undef, .undef] := by
  exact ⟨rfl, by simp⟩

/-- C4 (amended): merging is per spec instance through a shared
parameter object.  For a parse whose occurrences are the matches
`v :: vs` of one spec (so `k = 1 + vs.length` occurrences, in emission
order), every alias key of the spec is bound to the same merged value
`mergedVal m v vs`, where `m` is the number of alias keys: when the
spec owns exactly one distinct alias key this is the ordered k-element
list of the matched values, but when it owns `m > 1` distinct alias
keys each occurrence after the first is appended once per alias key,
giving a list of `1 + m(k-1)` elements instead of exactly `k`.  In
particular `-v -v` for a no-argument option with single key `v` yields
a two-element list, while the same tokens against a spec with keys `v`
and `verbose` yield a three-element list under both keys. -/
theorem c4_merge_per_alias_key :
    (∀ (s : OptionSpec) (ks : List (List Char)) (v : Option (List Char))
        (vs : List (Option (List Char))),
      s.name ++ s.short ++ s.long = ks → ks ≠ [] → ks.Nodup →
      (aggregate ((v :: vs).map (Param.opt s))).options =
          ks.map (fun key => (key, mergedVal ks.length v vs))
        ∧ (aggregate ((v :: vs).map (Param.opt s))).parameters = [])
    ∧ (∀ (m : Nat) (v : Option (List Char)) (vs : List (Option (List Char))), vs ≠ [] →
        mergedVal 1 v vs = .arr ((v :: vs).map scalarVal)
        ∧ ∃ l, mergedVal m v vs = .arr l ∧ l.length = 1 + m * vs.length)
    ∧ getopt [vSpec] [s2c "-v", s2c "-v"] =
        .ok ⟨[.opt vSpec (.arr [.undef, .undef]), .opt vSpec .undef],
          [(s2c "v", .arr [.undef, .undef])],
          []⟩
    ∧ getopt [vvSpec] [s2c "-v", s2c "-v"] =
        .ok ⟨[.opt vvSpec (.arr [.undef, .undef, .undef]), .opt vvSpec .undef],
          [(s2c "v", .arr [.undef, .undef, .undef]),
            (s2c "verbose", .arr [.undef, .undef, .undef])],
          []⟩ := by
  refine ⟨fun s ks v vs hks hne hnd => aggregate_single_spec s ks v vs hks hne hnd,
    fun m v vs hvs => ?_, rfl, rfl⟩
  obtain ⟨w, vs', rfl⟩ := List.exists_cons_of_ne_nil hvs
  constructor
  · show Value.arr (scalarVal v ::
        (w :: vs').flatMap (fun x => List.replicate 1 (scalarVal x))) = _
    rw [flatMap_replicate_one scalarVal (w :: vs')]
    rfl
  · refine ⟨scalarVal v :: (w :: vs').flatMap (fun x => List.replicate m (scalarVal x)),
      rfl, ?_⟩
    rw [List.length_cons, length_flatMap_replicate m scalarVal (w :: vs')]
    omega

/-- C4 (amended) witness: the general conjunct applied to the spec with
the two alias keys `v` and `verbose` matched twice with no values. -/
theorem c4_merge_per_alias_key_witness :
    (aggregate (([none, none] : List (Option (List Char))).map (Param.opt vvSpec))).options =
        ([s2c "v", s2c "verbose"] : List (List Char)).map
          (fun key => (key,
            mergedVal ([s2c "v", s2c "verbose"] : List (List Char)).length none [none]))
      ∧ (aggregate (([none, none] : List (Option (List Char))).map
          (Param.opt vvSpec))).parameters = [] :=
  c4_merge_per_alias_key.1 vvSpec [s2c "v", s2c "verbose"] none [none] rfl
    (by simp) (by decide)

/-- C5: short-option bundles resolve by greedy longest match — whenever
the search returns a match ending at `j`, that substring is registered
and no longer substring starting at the same offset is; and the token
`-MMGMPMFfile` against short forms `{M, MF(required-arg), MG, MP}`
yields exactly the occurrences `M`, `MG`, `MP` and `MF` with value
`file`, with zero positional parameters. -/
theorem c5_greedy_longest_match :
    (∀ (tbl : List (List Char × OptionSpec)) (arg : List Char) (i k j : Nat) (o : OptionSpec),
      findShort tbl arg i k = some (j, o) →
        mapGet tbl (subl arg i j) = some o ∧
          ∀ j', j < j' → j' ≤ i + k → mapGet tbl (subl arg i j') = none)
    ∧ parse1 mSpecs [s2c "-MMGMPMFfile"] =
        .ok [⟨.opt optM none, 0, some 0, some 1⟩,
          ⟨.opt optMG none, 0, some 1, some 2⟩,
          ⟨.opt optMP none, 0, some 3, some 2⟩,
          ⟨.opt optMF (some (s2c "file")), 0, some 5, some 2⟩]
    ∧ (getopt mSpecs [s2c "-MMGMPMFfile"]).map Results.parameters = .ok [] := by
  exact ⟨fun tbl arg i k j o h => findShort_longest h, rfl, rfl⟩

/-- C5 witness: the general conjunct applied to the concrete search in
the bundle `-MMGMPMFfile` at offset 2, where the match is `MG`. -/
theorem c5_greedy_longest_match_witness :
    mapGet (shortTable mSpecs) (subl (s2c "-MMGMPMFfile") 2 4) = some optMG :=
  (c5_greedy_longest_match.1 (shortTable mSpecs) (s2c "-MMGMPMFfile") 2 10 4 optMG rfl).1

/-- C6: long options split at the first `=` at or after offset 2 and
validate argument arity: `--output=report.txt` with a required-argument
option yields the value `report.txt`; `--output` alone raises the
missing-argument error; `--quiet=x` with a no-argument option raises
the argument-not-allowed error. -/
theorem c6_long_option_splitting :
    parse1 [outputSpec] [s2c "--output=report.txt"] =
      .ok [⟨.opt outputSpec (some (s2c "report.txt")), 0, none, none⟩]
    ∧ parse1 [outputSpec] [s2c "--output"] = .error (.missingArgument (s2c "output"))
    ∧ parse1 [quietSpec] [s2c "--quiet=x"] = .error (.argumentNotAllowed (s2c "quiet")) := by
  exact ⟨rfl, rfl, rfl⟩

/-- C7: once `endOptions` is set by the literal token `--`, every later
token is emitted as a positional parameter, whatever the registries
hold; in particular `['--foo', '--', '-bar']` treats `-bar` as a
positional, not an unrecognized option. -/
theorem c7_past_end_marker_positional :
    (∀ (sT lT : List (List Char × OptionSpec)) (ai p : Nat) (aw : Option Await)
        (args : List (List Char)),
      scanTokens sT lT ⟨ai, true, p, aw⟩ args = .ok (posResults ai p args))
    ∧ parse1 [fooSpec] [s2c "--foo", s2c "--", s2c "-bar"] =
        .ok [⟨.opt fooSpec none, 0, none, none⟩,
          ⟨.pos 0 (s2c "-bar"), 0, none, none⟩] := by
  exact ⟨fun sT lT ai p aw args => scanTokens_endOptions sT lT args ai p aw, rfl⟩

/-- C8: when no token starts with `-`, the parse succeeds, every token
becomes a positional parameter in input order with `position` equal to
its index, and the options mapping is empty. -/
theorem c8_no_dash_all_positional (opts : List OptionSpec) (args : List (List Char))
    (h : ∀ a ∈ args, a.head? ≠ some '-') :
    ∃ r, getopt opts args = .ok r ∧ r.parameters = idxPairs 0 args ∧ r.options = [] := by
  have hscan := scanTokens_noDash (shortTable opts) (longTable opts) args 0 0 h
  refine ⟨aggregate (posParams 0 args), ?_, ?_, ?_⟩
  · simp [getopt, parse1, hscan, posResults_params]
  · simp [aggregate, aggLoop_pos]
  · simp [aggregate, aggLoop_pos]

/-- C8 witness: the theorem applied to the tokens `['x', 'y']` with no
registered options. -/
theorem c8_no_dash_all_positional_witness :
    ∃ r, getopt [] [s2c "x", s2c "y"] = .ok r ∧
      r.parameters = idxPairs 0 [s2c "x", s2c "y"] ∧ r.options = [] :=
  c8_no_dash_all_positional [] [s2c "x", s2c "y"] (by decide)

/-- C9 counterexample: `--quiet=` against the no-argument option
`quiet` does not raise, but the yielded occurrence stores the empty
string as its value — the claim says the empty string is never stored
as the occurrence's inline value. -/
theorem c9_counterexample :
    parse1 [quietSpec] [s2c "--quiet="] =
      .ok [⟨.opt quietSpec (some []), 0, none, none⟩]
    ∧ (some ([] : List Char)) ≠ (none : Option (List Char)) := by
  exact ⟨rfl, by simp⟩

/-- C9 (amended): a token `--name=` is treated as if no value were
supplied for arity validation — with a required argument it raises the
missing-argument error, and with a no-argument spec it does not raise
the argument-not-allowed error — but when no error is raised the
occurrence's inline value is the empty string, not undefined. -/
theorem c9_empty_inline_value (sT lT : List (List Char × OptionSpec)) (st : ScState)
    (name : List Char) (spec : OptionSpec)
    (he : st.endOptions = false) (ha : st.awaiting = none)
    (hn : name ≠ []) (hq : '=' ∉ name)
    (hl : mapGet lT name = some spec) :
    processToken sT lT st ('-' :: '-' :: (name ++ ['='])) =
      if spec.argument && !spec.optional then .error (.missingArgument name)
      else .ok ([⟨.opt spec (some []), st.argIndex, none, none⟩], st) := by
  obtain ⟨ai, eo, p, aw⟩ := st
  simp only at he ha
  subst he; subst ha
  have hlen : ('-' :: '-' :: (name ++ ['='])).length = name.length + 3 := by
    simp [List.length_append]
  have hidx : idxOfFrom '=' ('-' :: '-' :: (name ++ ['='])) 2 = 2 + name.length := by
    simp [idxOfFrom, hlen, findIdx_eq_append hq]
  have hdrop : ('-' :: '-' :: (name ++ ['='])).drop (2 + name.length + 1) = [] := by
    apply List.drop_eq_nil_of_le
    omega
  simp only [processToken]
  rw [if_pos (⟨rfl, by rw [hlen]; omega⟩ :
    ('-' :: '-' :: (name ++ ['='])).head? = some '-' ∧ 1 < ('-' :: '-' :: (name ++ ['='])).length)]
  rw [if_pos (show ('-' :: '-' :: (name ++ ['=']))[1]? = some '-' by simp)]
  rw [if_neg (show ¬('-' :: '-' :: (name ++ ['='])).length = 2 by rw [hlen]; omega)]
  rw [hidx]
  rw [subl_mid ['=']]
  rw [hl]
  rw [if_pos (show 2 + name.length < ('-' :: '-' :: (name ++ ['='])).length by rw [hlen]; omega)]
  rw [hdrop]
  rfl

/-- C9 witness: the amended theorem applied to the no-argument option
`quiet` and the token `--quiet=`. -/
theorem c9_empty_inline_value_witness :
    processToken [] [(s2c "quiet", quietSpec)] ⟨0, false, 0, none⟩
        ('-' :: '-' :: (s2c "quiet" ++ ['='])) =
      if quietSpec.argument && !quietSpec.optional
      then .error (.missingArgument (s2c "quiet"))
      else .ok ([⟨.opt quietSpec (some []), 0, none, none⟩], ⟨0, false, 0, none⟩) :=
  c9_empty_inline_value [] [(s2c "quiet", quietSpec)] ⟨0, false, 0, none⟩
    (s2c "quiet") quietSpec rfl rfl (by decide) (by decide) rfl

/-- C10: a token consisting of exactly `-` is never treated as an
option: in any scanner state that is not awaiting an argument it is
emitted as a positional parameter with the next position counter,
whatever short options are registered. -/
theorem c10_single_dash_positional (sT lT : List (List Char × OptionSpec)) (st : ScState)
    (h : st.awaiting = none) :
    processToken sT lT st (s2c "-") =
      .ok ([⟨.pos st.position (s2c "-"), st.argIndex, none, none⟩],
        { st with position := st.position + 1, argIndex := st.argIndex + 1 }) := by
  obtain ⟨ai, eo, p, aw⟩ := st
  simp only at h
  subst h
  cases eo <;> rfl

/-- C10 witness: the theorem applied to a concrete non-awaiting state
with a registered short option. -/
theorem c10_single_dash_positional_witness :
    processToken [(s2c "v", vSpec)] [] ⟨5, false, 7, none⟩ (s2c "-") =
      .ok ([⟨.pos 7 (s2c "-"), 5, none, none⟩], ⟨6, false, 8, none⟩) :=
  c10_single_dash_positional [(s2c "v", vSpec)] [] ⟨5, false, 7, none⟩ rfl

end Getopt
